import Mathlib

/-!
# goMeeb: aggregation and rarity scoring

A shallow embedding of the two concurrent variants of the tool,
`meeb/meeb.go` (one column, counts) and `mel/mel.go` (several columns, rows),
followed by theorems about them.

Modelling conventions.

* A Go `map` is the list of its entries, in the order a `range` loop visits
  them.  Go leaves that order unspecified, so a statement about "every tally"
  quantifies over every such list (with pairwise distinct keys).
* A Go `int` is a Lean `Int`; the counters here never come near 2^63.
* A runtime panic (index out of range) is `Except.error`.
* `float64` keeps the IEEE special values (NaN and the two infinities) and the
  IEEE rules for division by zero, for the logarithm of zero, of a negative
  number and of an infinity, and for comparisons.  Finite values are exact
  rationals and the result of `math.Log10` is the exact logarithm, kept
  symbolically: the rounding error of the hardware is not modelled.
* `sort.Slice` is the insertion sort that Go runs on slices of at most twelve
  elements; on longer slices Go switches to pattern-defeating quicksort, which
  returns a permutation ordered by the same comparator but may place tied
  elements differently.
-/

namespace GoMeeb

/-! ## Strings -/

/-- Go's `<` on strings: bytewise lexicographic order (the order of the
UTF-8 encodings is the order of the code points). -/
def lexLess : List Char → List Char → Bool
  | [], [] => false
  | [], _ :: _ => true
  | _ :: _, [] => false
  | x :: xs, y :: ys =>
    if x.toNat < y.toNat then true
    else if y.toNat < x.toNat then false
    else lexLess xs ys

/-- String comparison `a < b`. -/
def strLess (a b : String) : Bool := lexLess a.data b.data

/-- The verb `%d` of `fmt.Sprintf`. -/
def fmtD (n : Int) : String := toString n

/-! ## float64 -/

/-- A `float64` obtained from integers, from the command line or from
`strconv.ParseFloat`: a special value or the rational `num / den`. -/
inductive F64 where
  | nan
  | ninf
  | pinf
  | fin (num : Int) (den : Nat)
deriving DecidableEq, Repr

/-- A `float64` returned by `math.Log10`: a special value or the logarithm
to base ten of the positive rational `num / den`. -/
inductive Score where
  | nan
  | ninf
  | pinf
  | log (num den : Nat)
deriving DecidableEq, Repr

/-- A finite value has a positive denominator. -/
def F64.WF : F64 → Prop
  | .fin _ d => 0 < d
  | _ => True

/-- The quotient `float64(count) / float64(totalEntries)`.  Division by zero
is not a fault on floats: it gives an infinity, or NaN for `0 / 0`. -/
def fdiv (count total : Int) : F64 :=
  if total = 0 then
    if 0 < count then .pinf else if count < 0 then .ninf else .nan
  else if 0 < total then .fin count total.toNat
  else .fin (-count) (-total).toNat

/-- The function `math.Log10`: NaN for a negative argument, minus infinity
at zero, plus infinity at plus infinity. -/
def log10 : F64 → Score
  | .nan => .nan
  | .ninf => .nan
  | .pinf => .pinf
  | .fin n d => if n < 0 then .nan else if n = 0 then .ninf else .log n.toNat d

/-- The comparison `logProportion < threshold`.  For finite values
`log10 (n / d) < p / q` is `(n / d) ^ q < 10 ^ p`, decided on integers. -/
def Score.ltThr : Score → F64 → Bool
  | .nan, _ => false
  | _, .nan => false
  | .pinf, _ => false
  | _, .ninf => false
  | .ninf, _ => true
  | .log _ _, .pinf => true
  | .log n d, .fin p q => decide (n ^ q * 10 ^ (-p).toNat < d ^ q * 10 ^ p.toNat)

/-- The comparison `x < y` of two `float64`. -/
def F64.lt : F64 → F64 → Bool
  | .nan, _ => false
  | _, .nan => false
  | .pinf, _ => false
  | _, .ninf => false
  | .ninf, _ => true
  | .fin _ _, .pinf => true
  | .fin a b, .fin c d => decide (a * d < c * b)

/-- Largest `k` below the fuel with `10 ^ k * b ≤ a`. -/
def ilog10 (a b : Nat) : Nat → Nat
  | 0 => 0
  | fuel + 1 => if 10 * b ≤ a then ilog10 a (10 * b) fuel + 1 else 0

/-- Decimal digits of `log10 (a / b)` for `1 ≤ a / b < 10`, appended to
`acc`; after the last digit the value is rounded to nearest. -/
def logDigits : Nat → Nat → Nat → Nat → Nat
  | 0, acc, a, b => if 10 * b ^ 2 ≤ a ^ 2 then acc + 1 else acc
  | s + 1, acc, a, b =>
    let k := ilog10 (a ^ 10) (b ^ 10) 10
    logDigits s (10 * acc + k) (a ^ 10) (b ^ 10 * 10 ^ k)

/-- The integer nearest to `10 ^ 6 * log10 (a / b)`, for `b ≤ a`. -/
def microLog (a b : Nat) : Nat :=
  let k := ilog10 a b a
  logDigits 6 k a (b * 10 ^ k)

/-- Six decimals, zero padded. -/
def pad6 (n : Nat) : String :=
  let s := toString n
  String.mk (List.replicate (6 - s.length) '0') ++ s

/-- A number of millionths printed with six decimals. -/
def fmtMicro (m : Nat) : String :=
  toString (m / 1000000) ++ "." ++ pad6 (m % 1000000)

/-- The verb `%f` of `fmt.Sprintf` on the result of `math.Log10`. -/
def fmtF : Score → String
  | .nan => "NaN"
  | .ninf => "-Inf"
  | .pinf => "+Inf"
  | .log n d => if d ≤ n then fmtMicro (microLog n d) else "-" ++ fmtMicro (microLog d n)

/-- Value of a list of decimal digits, `none` when a character is not a
digit. -/
def digitsVal : List Char → Option Nat
  | [] => some 0
  | cs => cs.foldl (fun acc c => acc.bind fun v =>
      if c.isDigit then some (10 * v + (c.toNat - 48)) else none) (some 0)

/-- An unsigned decimal `ddd` or `ddd.ddd` as a fraction. -/
def parseUnsigned (cs : List Char) : Option (Nat × Nat) :=
  let ip := cs.takeWhile (· ≠ '.')
  let fp := (cs.dropWhile (· ≠ '.')).drop 1
  if ip.isEmpty && fp.isEmpty then none
  else match digitsVal ip, digitsVal fp with
    | some i, some f => some (i * 10 ^ fp.length + f, 10 ^ fp.length)
    | _, _ => none

/-- The function `strconv.ParseFloat(s, 64)` with its error dropped, on the
plain decimal notation and the special values that `%f` prints; a string that
does not parse gives 0, as in Go. -/
def parseFloat (s : String) : F64 :=
  match s.data with
  | ['N', 'a', 'N'] => .nan
  | ['+', 'I', 'n', 'f'] => .pinf
  | ['I', 'n', 'f'] => .pinf
  | ['-', 'I', 'n', 'f'] => .ninf
  | '-' :: cs =>
    match parseUnsigned cs with
    | some (n, d) => .fin (-(n : Int)) d
    | none => .fin 0 1
  | '+' :: cs =>
    match parseUnsigned cs with
    | some (n, d) => .fin n d
    | none => .fin 0 1
  | cs =>
    match parseUnsigned cs with
    | some (n, d) => .fin n d
    | none => .fin 0 1

/-- The rarity score `math.Log10(float64(count) / float64(totalEntries))`. -/
def score (count total : Int) : Score := log10 (fdiv count total)

/-! ## Slices and maps -/

/-- The inner loop of Go's insertion sort: the element `x` at index `j`
moves left while `less(j, j-1)` holds.  The sorted prefix is given last
element first. -/
def insertLeft {α : Type} (less : α → α → Bool) (x : α) : List α → List α
  | [] => [x]
  | y :: ys => if less x y then y :: insertLeft less x ys else x :: y :: ys

/-- The call `sort.Slice(xs, less)`, with `less` as a relation between
elements. -/
def sortSlice {α : Type} (less : α → α → Bool) (xs : List α) : List α :=
  (xs.foldl (fun pre x => insertLeft less x pre) []).reverse

/-- A `map[string]int`, as the entries a `range` loop yields. -/
abbrev Tally := List (String × Int)

/-- A `map[string][][]string`, as the entries a `range` loop yields. -/
abbrev RowTally := List (String × List (List String))

/-- The read `m[k]`, zero for an absent key. -/
def Tally.get (m : Tally) (k : String) : Int :=
  match m with
  | [] => 0
  | (k', c) :: rest => if k' = k then c else Tally.get rest k

/-- The update `m[k] += c`. -/
def Tally.add (m : Tally) (k : String) (c : Int) : Tally :=
  match m with
  | [] => [(k, c)]
  | (k', c') :: rest => if k' = k then (k', c' + c) :: rest else (k', c') :: Tally.add rest k c

/-- The update `m[k] = append(m[k], row)`. -/
def RowTally.push (m : RowTally) (k : String) (row : List String) : RowTally :=
  match m with
  | [] => [(k, [row])]
  | (k', rows) :: rest =>
    if k' = k then (k', rows ++ [row]) :: rest else (k', rows) :: RowTally.push rest k row

/-- Runtime panics. -/
inductive Fault where
  | indexOutOfRange
deriving DecidableEq, Repr

/-- What `os.Open` followed by `csv.Reader.ReadAll` (with
`FieldsPerRecord = -1`) gives for a file: an error, or the records. -/
inductive FileRead where
  | failed
  | parsed (records : List (List String))
deriving DecidableEq, Repr

/-- The header search loop: index of the first field equal to `header`,
`none` for the initial `-1`. -/
def headerIndex (header : String) : List String → Option Nat
  | [] => none
  | h :: hs => if h = header then some 0 else (headerIndex header hs).map (· + 1)

/-- The function `determineNumGoroutines` (the same in both programs). -/
def determineNumGoroutines (files : List String) : Int :=
  let numGoroutines : Int := (files.length : Int) / 2
  if numGoroutines > 10 then 10 else if numGoroutines < 1 then 1 else numGoroutines

/-! ## meeb: one column, counts -/

namespace Meeb

/-- One iteration of the counting loop of `processFile`:
`value := record[headerIndex]; data[value]++; count++`. -/
def tallyRow (i : Nat) (st : Tally × Int) (record : List String) : Except Fault (Tally × Int) :=
  match record.get? i with
  | none => .error .indexOutOfRange
  | some value => .ok (st.1.add value 1, st.2 + 1)

/-- The counting loop of `processFile` over `records[1:]`. -/
def tallyRows (i : Nat) : List (List String) → Tally × Int → Except Fault (Tally × Int)
  | [], st => .ok st
  | record :: rest, st =>
    match tallyRow i st record with
    | .error e => .error e
    | .ok st' => tallyRows i rest st'

/-- The function `processFile`. -/
def processFile (file : FileRead) (header : String) : Except Fault (Tally × Int) :=
  match file with
  | .failed => .ok ([], 0)
  | .parsed [] => .error .indexOutOfRange
  | .parsed (head :: rows) =>
    match headerIndex header head with
    | none => .ok ([], 0)
    | some i => tallyRows i rows ([], 0)

/-- The loop `for key, count := range data { aggregatedData[key] += count }`
on the entries in the order the loop visits them. -/
def mergeInto (aggregatedData : Tally) (data : Tally) : Tally :=
  data.foldl (fun m kc => m.add kc.1 kc.2) aggregatedData

/-- Results of `processFile` on a list of files; a panic in any worker ends
the program. -/
def processAll (header : String) : List FileRead → Except Fault (List (Tally × Int))
  | [] => .ok []
  | f :: fs =>
    match processFile f header with
    | .error e => .error e
    | .ok r =>
      match processAll header fs with
      | .error e => .error e
      | .ok rs => .ok (r :: rs)

/-- The function `aggregateData`.  With `numGoroutines ≤ 0` no worker is
started, the files stay in the buffered channel and the result is empty.
Otherwise the scheduler is explicit: `chanOrder` is the order in which the
workers put their tallies on `dataChan`, `lockOrder` the order in which they
take the mutex to add their counts (both list the files once each), and
`range` the order in which a `range` loop visits the entries of a tally.  The
size of the pool only decides which of these schedules can occur. -/
def aggregateData (header : String) (numGoroutines : Int) (range : Tally → Tally)
    (chanOrder lockOrder : List FileRead) : Except Fault (Tally × Int) :=
  if numGoroutines ≤ 0 then .ok ([], 0)
  else
    match processAll header chanOrder, processAll header lockOrder with
    | .ok sent, .ok locked =>
      .ok (sent.foldl (fun agg r => mergeInto agg (range r.1)) [],
           locked.foldl (fun totalEntries r => totalEntries + r.2) 0)
    | .error e, _ => .error e
    | _, .error e => .error e

/-- The slice appended for a flagged key. -/
def entry (value : String) (count total : Int) : List String :=
  [fmtD count, fmtF (score count total), value]

/-- The loop of `identifyAnomalies` that collects the flagged keys. -/
def collect (data : Tally) (totalEntries : Int) (threshold : F64) : List (List String) :=
  match data with
  | [] => []
  | (value, count) :: rest =>
    if (score count totalEntries).ltThr threshold then
      entry value count totalEntries :: collect rest totalEntries threshold
    else collect rest totalEntries threshold

/-- The comparator of `identifyAnomalies`: `anomalies[i][1] < anomalies[j][1]`,
a comparison of strings. -/
def less (a b : List String) : Bool := strLess (a.getD 1 "") (b.getD 1 "")

/-- The function `identifyAnomalies`. -/
def identifyAnomalies (data : Tally) (totalEntries : Int) (threshold : F64) : List (List String) :=
  sortSlice less (collect data totalEntries threshold)

end Meeb

/-! ## mel: several columns, rows -/

namespace Mel

/-- One iteration of the row loop of `processFile` for the column at index
`i`: a short record is skipped, otherwise it is appended to its bucket. -/
def attributeRow (i : Nat) (st : RowTally × Int) (record : List String) : RowTally × Int :=
  if record.length ≤ i then st
  else (st.1.push (record.getD i "") record, st.2 + 1)

/-- One iteration of the loop over the selector columns. -/
def perHeader (head : List String) (rows : List (List String)) (st : RowTally × Int)
    (header : String) : RowTally × Int :=
  match headerIndex header head with
  | none => st
  | some i => rows.foldl (attributeRow i) st

/-- The function `processFile`; `none` stands for its error result. -/
def processFile (file : FileRead) (headers : List String) :
    Except Fault (Option (RowTally × Int)) :=
  match file with
  | .failed => .ok none
  | .parsed [] => if headers.isEmpty then .ok (some ([], 0)) else .error .indexOutOfRange
  | .parsed (head :: rows) => .ok (some (headers.foldl (perHeader head rows) ([], 0)))

/-- The slices appended for a flagged bucket: count and score, then the
fields of the row. -/
def entries (rows : List (List String)) (total : Int) : List (List String) :=
  rows.map fun row => [fmtD rows.length, fmtF (score rows.length total)] ++ row

/-- The loop of `identifyAnomalies` that collects the rows of the flagged
buckets. -/
def collect (data : RowTally) (totalEntries : Int) (threshold : F64) : List (List String) :=
  match data with
  | [] => []
  | (_, rows) :: rest =>
    if (score rows.length totalEntries).ltThr threshold then
      entries rows totalEntries ++ collect rest totalEntries threshold
    else collect rest totalEntries threshold

/-- The comparator of `identifyAnomalies`: the two score fields parsed back
with `strconv.ParseFloat` and compared as numbers. -/
def less (a b : List String) : Bool :=
  (parseFloat (a.getD 1 "")).lt (parseFloat (b.getD 1 ""))

/-- The function `identifyAnomalies`. -/
def identifyAnomalies (data : RowTally) (totalEntries : Int) (threshold : F64) :
    List (List String) :=
  sortSlice less (collect data totalEntries threshold)

end Mel

/-! ## The scenario of the specification -/

/-- Three files with header `id,category` and the rows (1,A),(2,A),(3,B);
(4,A),(5,C); (6,A). -/
def scenarioFiles : List FileRead :=
  [.parsed [["id", "category"], ["1", "A"], ["2", "A"], ["3", "B"]],
   .parsed [["id", "category"], ["4", "A"], ["5", "C"]],
   .parsed [["id", "category"], ["6", "A"]]]

/-- Number of data rows that are attributed to at least one selector column,
each row counted once: the count as the specification words it. -/
def rowsAttributedOnce (head : List String) (rows : List (List String))
    (headers : List String) : Nat :=
  (rows.filter fun record => headers.any fun header =>
    match headerIndex header head with
    | none => false
    | some i => decide (i < record.length)).length

/-- Sum of the counts that a sequence of entries carries for a key. -/
def keySum (data : Tally) (key : String) : Int :=
  ((data.filter fun kc => decide (kc.1 = key)).map Prod.snd).sum

/-! ## Lemmas on slices and maps -/

theorem insertLeft_perm {α : Type} (less : α → α → Bool) (x : α) (pre : List α) :
    (insertLeft less x pre).Perm (x :: pre) := by
  induction pre with
  | nil => simp [insertLeft]
  | cons y ys ih =>
    unfold insertLeft
    split
    · exact (List.Perm.cons y ih).trans (List.Perm.swap x y ys)
    · exact List.Perm.refl _

theorem foldl_insertLeft_perm {α : Type} (less : α → α → Bool) (xs pre : List α) :
    (xs.foldl (fun pre x => insertLeft less x pre) pre).Perm (xs ++ pre) := by
  induction xs generalizing pre with
  | nil => simp
  | cons x xs ih =>
    simp only [List.foldl_cons, List.cons_append]
    refine (ih _).trans ?_
    exact (List.Perm.append_left xs (insertLeft_perm less x pre)).trans
      List.perm_middle

/-- Sorting only moves elements. -/
theorem sortSlice_perm {α : Type} (less : α → α → Bool) (xs : List α) :
    (sortSlice less xs).Perm xs := by
  unfold sortSlice
  refine (List.reverse_perm _).trans ?_
  simpa using foldl_insertLeft_perm less xs []

theorem meeb_collect_eq (data : Tally) (total : Int) (thr : F64) :
    Meeb.collect data total thr =
      (data.filter fun kc => (score kc.2 total).ltThr thr).map
        fun kc => Meeb.entry kc.1 kc.2 total := by
  induction data with
  | nil => rfl
  | cons kc rest ih =>
    obtain ⟨k, c⟩ := kc
    unfold Meeb.collect
    by_cases h : (score c total).ltThr thr = true
    · simp [h, ih]
    · simp [h, ih]

theorem filter_key_of_nodup (data : Tally) (value : String) (count : Int)
    (hkeys : (data.map Prod.fst).Nodup) (hmem : (value, count) ∈ data) :
    data.filter (fun kc => decide (kc.1 = value)) = [(value, count)] := by
  induction data with
  | nil => simp at hmem
  | cons kc rest ih =>
    obtain ⟨k, c⟩ := kc
    simp only [List.map_cons, List.nodup_cons] at hkeys
    rcases List.mem_cons.1 hmem with h | h
    · cases h
      have hnone : rest.filter (fun kc => decide (kc.1 = value)) = [] := by
        apply List.filter_eq_nil_iff.2
        intro a ha hv
        apply hkeys.1
        simp only [decide_eq_true_eq] at hv
        exact hv ▸ List.mem_map_of_mem Prod.fst ha
      simp [List.filter_cons, hnone]
    · have hne : k ≠ value := by
        intro hk
        apply hkeys.1
        exact hk ▸ List.mem_map_of_mem Prod.fst h
      simp [List.filter_cons, hne, ih hkeys.2 h]

theorem tally_get_add (m : Tally) (k key : String) (c : Int) :
    (m.add k c).get key = m.get key + if k = key then c else 0 := by
  induction m with
  | nil =>
    by_cases h : k = key <;> simp [Tally.add, Tally.get, h]
  | cons kc rest ih =>
    obtain ⟨k', c'⟩ := kc
    unfold Tally.add
    by_cases h : k' = k
    · subst h
      by_cases h' : k' = key <;> simp [Tally.get, h']
    · by_cases h' : k' = key
      · subst h'
        have hk : ¬ k = k' := fun e => h e.symm
        simp [Tally.get, h, hk]
      · simp [Tally.get, h, h', ih]

theorem tally_add_keys (m : Tally) (k : String) (c : Int) :
    (m.add k c).map Prod.fst =
      if k ∈ m.map Prod.fst then m.map Prod.fst else m.map Prod.fst ++ [k] := by
  induction m with
  | nil => simp [Tally.add]
  | cons kc rest ih =>
    obtain ⟨k', c'⟩ := kc
    unfold Tally.add
    by_cases h : k' = k
    · subst h
      simp
    · have hk : ¬ k = k' := fun e => h e.symm
      by_cases hmem : k ∈ rest.map Prod.fst
      · simp only [h, if_false, List.map_cons, ih, hmem, if_true, List.mem_cons, or_true]
      · simp only [h, if_false, List.map_cons, ih, hmem, List.mem_cons, hk, or_self,
          List.cons_append]

theorem tally_add_nodup (m : Tally) (k : String) (c : Int)
    (h : (m.map Prod.fst).Nodup) : ((m.add k c).map Prod.fst).Nodup := by
  rw [tally_add_keys]
  split
  · exact h
  · rename_i hk
    exact List.Nodup.append h (List.nodup_singleton k) (by simpa using hk)

theorem keySum_perm {a b : Tally} (h : a.Perm b) (key : String) :
    keySum a key = keySum b key :=
  ((h.filter _).map _).sum_eq

theorem keySum_of_nodup (m : Tally) (key : String) (h : (m.map Prod.fst).Nodup) :
    keySum m key = m.get key := by
  induction m with
  | nil => rfl
  | cons kc rest ih =>
    obtain ⟨k, c⟩ := kc
    simp only [List.map_cons, List.nodup_cons] at h
    by_cases hk : k = key
    · subst hk
      have hnone : rest.filter (fun kc => decide (kc.1 = k)) = [] := by
        apply List.filter_eq_nil_iff.2
        intro a ha hv
        simp only [decide_eq_true_eq] at hv
        exact h.1 (hv ▸ List.mem_map_of_mem Prod.fst ha)
      simp [keySum, Tally.get, List.filter_cons, hnone]
    · have := ih h.2
      simp only [keySum] at this
      simp [keySum, Tally.get, List.filter_cons, hk, this]

theorem mergeInto_get (agg data : Tally) (key : String) :
    (Meeb.mergeInto agg data).get key = agg.get key + keySum data key := by
  induction data generalizing agg with
  | nil => simp [Meeb.mergeInto, keySum]
  | cons kc rest ih =>
    obtain ⟨k, c⟩ := kc
    have hstep : Meeb.mergeInto agg ((k, c) :: rest) = Meeb.mergeInto (agg.add k c) rest := rfl
    rw [hstep, ih, tally_get_add]
    by_cases hk : k = key
    · simp [keySum, List.filter_cons, hk, add_assoc]
    · simp [keySum, List.filter_cons, hk]

theorem mergeInto_nodup (agg data : Tally) (h : (agg.map Prod.fst).Nodup) :
    ((Meeb.mergeInto agg data).map Prod.fst).Nodup := by
  induction data generalizing agg with
  | nil => exact h
  | cons kc rest ih => exact ih _ (tally_add_nodup agg kc.1 kc.2 h)

theorem tallyRows_nodup (i : Nat) (rows : List (List String)) (st st' : Tally × Int)
    (h : (st.1.map Prod.fst).Nodup) (hr : Meeb.tallyRows i rows st = .ok st') :
    (st'.1.map Prod.fst).Nodup := by
  induction rows generalizing st with
  | nil =>
    simp only [Meeb.tallyRows, Except.ok.injEq] at hr
    exact hr ▸ h
  | cons record rest ih =>
    unfold Meeb.tallyRows at hr
    cases hrow : Meeb.tallyRow i st record with
    | error e => simp [hrow] at hr
    | ok st1 =>
      simp only [hrow] at hr
      refine ih st1 ?_ hr
      unfold Meeb.tallyRow at hrow
      split at hrow
      · cases hrow
      · cases hrow
        exact tally_add_nodup _ _ _ h

theorem meeb_processFile_nodup (file : FileRead) (header : String) (r : Tally × Int)
    (h : Meeb.processFile file header = .ok r) : (r.1.map Prod.fst).Nodup := by
  unfold Meeb.processFile at h
  split at h
  · cases h; simp
  · cases h
  · split at h
    · cases h; simp
    · exact tallyRows_nodup _ _ _ _ (by simp) h

theorem processAll_ok_iff (header : String) (files : List FileRead) (rs : List (Tally × Int)) :
    Meeb.processAll header files = .ok rs ↔
      List.Forall₂ (fun f r => Meeb.processFile f header = .ok r) files rs := by
  induction files generalizing rs with
  | nil =>
    constructor
    · intro h
      simp only [Meeb.processAll, Except.ok.injEq] at h
      exact h ▸ List.Forall₂.nil
    · intro h
      cases h
      rfl
  | cons f fs ih =>
    unfold Meeb.processAll
    constructor
    · intro h
      cases hf : Meeb.processFile f header with
      | error e => simp [hf] at h
      | ok r =>
        cases hfs : Meeb.processAll header fs with
        | error e => simp [hf, hfs] at h
        | ok rs' =>
          simp only [hf, hfs, Except.ok.injEq] at h
          exact h ▸ List.Forall₂.cons hf ((ih rs').1 hfs)
    · intro h
      cases h with
      | cons hf hfs =>
        rw [hf]
        simp only
        rw [(ih _).2 hfs]

theorem forall₂_mem_right {α β : Type} {R : α → β → Prop} {as : List α} {bs : List β}
    (h : List.Forall₂ R as bs) {b : β} (hb : b ∈ bs) : ∃ a, R a b := by
  induction h with
  | nil => simp at hb
  | cons hab _ ih =>
    rcases List.mem_cons.1 hb with e | e
    · exact ⟨_, e ▸ hab⟩
    · exact ih e

theorem foldl_merge_get (range : Tally → Tally) (hrange : ∀ t, (range t).Perm t)
    (sent : List (Tally × Int)) (agg : Tally)
    (hsent : ∀ r ∈ sent, (r.1.map Prod.fst).Nodup) (key : String) :
    (sent.foldl (fun agg r => Meeb.mergeInto agg (range r.1)) agg).get key =
      agg.get key + (sent.map fun r => r.1.get key).sum := by
  induction sent generalizing agg with
  | nil => simp
  | cons r rest ih =>
    simp only [List.foldl_cons, List.map_cons, List.sum_cons]
    rw [ih _ (fun x hx => hsent x (List.mem_cons_of_mem _ hx)), mergeInto_get,
      keySum_perm (hrange r.1), keySum_of_nodup _ _ (hsent r (List.mem_cons_self _ _))]
    ring

theorem foldl_count_sum (locked : List (Tally × Int)) (n : Int) :
    locked.foldl (fun totalEntries r => totalEntries + r.2) n =
      n + (locked.map Prod.snd).sum := by
  induction locked generalizing n with
  | nil => simp
  | cons r rest ih =>
    simp only [List.foldl_cons, List.map_cons, List.sum_cons]
    rw [ih]
    ring

theorem pow_cmp_trans (n d q1 q2 : Nat) (p1 p2 : Int)
    (hA : n ^ q1 * 10 ^ (-p1).toNat < d ^ q1 * 10 ^ p1.toNat)
    (hH : p1 * q2 < p2 * q1) :
    n ^ q2 * 10 ^ (-p2).toNat < d ^ q2 * 10 ^ p2.toNat := by
  rcases Nat.eq_zero_or_pos q2 with hq | hq
  · subst hq
    have hp : 0 < p2 := by
      have h0 : (0 : Int) < p2 * q1 := by simpa using hH
      have hq1 : (0 : Int) ≤ q1 := Int.ofNat_nonneg q1
      rcases lt_trichotomy p2 0 with h | h | h
      · nlinarith
      · simp [h] at h0
      · exact h
    have ha : (-p2).toNat = 0 := by omega
    have hb : 0 < p2.toNat := by omega
    rw [ha]
    simp only [pow_zero, one_mul]
    exact Nat.one_lt_pow (by omega) (by norm_num)
  · have e1 : (p1 : Int) = (p1.toNat : Int) - ((-p1).toNat : Int) := by omega
    have e2 : (p2 : Int) = (p2.toNat : Int) - ((-p2).toNat : Int) := by omega
    generalize (-p1).toNat = a1 at hA e1
    generalize p1.toNat = b1 at hA e1
    generalize (-p2).toNat = a2 at e2 ⊢
    generalize p2.toNat = b2 at e2 ⊢
    have hH' : b1 * q2 + a2 * q1 < b2 * q1 + a1 * q2 := by
      zify
      rw [e1, e2] at hH
      linarith
    have hA2 : (n ^ q1 * 10 ^ a1) ^ q2 < (d ^ q1 * 10 ^ b1) ^ q2 :=
      Nat.pow_lt_pow_left hA (by omega)
    have hstep : (n ^ q2 * 10 ^ a2) ^ q1 * 10 ^ (a1 * q2) <
        (d ^ q2 * 10 ^ b2) ^ q1 * 10 ^ (a1 * q2) := by
      calc (n ^ q2 * 10 ^ a2) ^ q1 * 10 ^ (a1 * q2)
          = (n ^ q1 * 10 ^ a1) ^ q2 * 10 ^ (a2 * q1) := by ring
        _ < (d ^ q1 * 10 ^ b1) ^ q2 * 10 ^ (a2 * q1) :=
            Nat.mul_lt_mul_of_pos_right hA2 (by positivity)
        _ = d ^ (q1 * q2) * 10 ^ (b1 * q2 + a2 * q1) := by ring
        _ ≤ d ^ (q1 * q2) * 10 ^ (b2 * q1 + a1 * q2) :=
            Nat.mul_le_mul_left _ (Nat.pow_le_pow_right (by norm_num) hH'.le)
        _ = (d ^ q2 * 10 ^ b2) ^ q1 * 10 ^ (a1 * q2) := by ring
    have hpow : (n ^ q2 * 10 ^ a2) ^ q1 < (d ^ q2 * 10 ^ b2) ^ q1 :=
      Nat.lt_of_mul_lt_mul_right hstep
    exact lt_of_pow_lt_pow_left₀ q1 (Nat.zero_le _) hpow

/-- A score below a threshold is below every larger threshold. -/
theorem ltThr_of_lt (s : Score) (t1 t2 : F64) (hs : s.ltThr t1 = true)
    (ht : t1.lt t2 = true) : s.ltThr t2 = true := by
  cases s with
  | nan => cases t1 <;> simp [Score.ltThr] at hs
  | pinf => cases t1 <;> simp [Score.ltThr] at hs
  | ninf => cases t1 <;> cases t2 <;> simp_all [Score.ltThr, F64.lt]
  | log n d =>
    cases t1 with
    | nan => simp [Score.ltThr] at hs
    | ninf => simp [Score.ltThr] at hs
    | pinf => cases t2 <;> simp [F64.lt] at ht
    | fin p1 q1 =>
      cases t2 with
      | nan => simp [F64.lt] at ht
      | ninf => simp [F64.lt] at ht
      | pinf => rfl
      | fin p2 q2 =>
        simp only [Score.ltThr, F64.lt, decide_eq_true_eq] at hs ht ⊢
        exact pow_cmp_trans n d q1 q2 p1 p2 hs ht

theorem mel_collect_eq (data : RowTally) (total : Int) (thr : F64) :
    Mel.collect data total thr =
      (data.filter fun kr => (score kr.2.length total).ltThr thr).flatMap
        fun kr => Mel.entries kr.2 total := by
  induction data with
  | nil => rfl
  | cons kr rest ih =>
    obtain ⟨k, rows⟩ := kr
    unfold Mel.collect
    by_cases h : (score rows.length total).ltThr thr = true
    · simp [h, ih, List.filter_cons]
    · simp [h, ih, List.filter_cons]

theorem mem_sortSlice {α : Type} (less : α → α → Bool) (xs : List α) (x : α) :
    x ∈ sortSlice less xs ↔ x ∈ xs :=
  (sortSlice_perm less xs).mem_iff

theorem lexLess_irrefl (a : List Char) : lexLess a a = false := by
  induction a with
  | nil => rfl
  | cons x xs ih => simp [lexLess, ih]

theorem lexLess_trans (a b c : List Char) (hab : lexLess a b = true)
    (hbc : lexLess b c = true) : lexLess a c = true := by
  induction a generalizing b c with
  | nil =>
    cases b with
    | nil => simp [lexLess] at hab
    | cons y ys =>
      cases c with
      | nil => simp [lexLess] at hbc
      | cons z zs => rfl
  | cons x xs ih =>
    cases b with
    | nil => simp [lexLess] at hab
    | cons y ys =>
      cases c with
      | nil => simp [lexLess] at hbc
      | cons z zs =>
        unfold lexLess at hab hbc ⊢
        by_cases hxy : x.toNat < y.toNat
        · by_cases hyz : y.toNat < z.toNat
          · have : x.toNat < z.toNat := by omega
            simp [this]
          · by_cases hzy : z.toNat < y.toNat
            · simp [hyz, hzy] at hbc
            · have : x.toNat < z.toNat := by omega
              simp [this]
        · by_cases hyx : y.toNat < x.toNat
          · simp [hxy, hyx] at hab
          · simp only [hxy, hyx, if_false] at hab
            by_cases hyz : y.toNat < z.toNat
            · have : x.toNat < z.toNat := by omega
              simp [this]
            · by_cases hzy : z.toNat < y.toNat
              · simp [hyz, hzy] at hbc
              · simp only [hyz, hzy, if_false] at hbc
                have h1 : ¬ x.toNat < z.toNat := by omega
                have h2 : ¬ z.toNat < x.toNat := by omega
                simp only [h1, h2, if_false]
                exact ih ys zs hab hbc

theorem lexLess_total (a b : List Char) (h : a ≠ b) :
    lexLess a b = true ∨ lexLess b a = true := by
  induction a generalizing b with
  | nil =>
    cases b with
    | nil => exact absurd rfl h
    | cons y ys => exact Or.inl rfl
  | cons x xs ih =>
    cases b with
    | nil => exact Or.inr rfl
    | cons y ys =>
      unfold lexLess
      by_cases hxy : x.toNat < y.toNat
      · simp [hxy]
      · by_cases hyx : y.toNat < x.toNat
        · simp [hyx]
        · have hn : x.toNat = y.toNat := by omega
          have hc : x = y :=
            calc x = Char.ofNat x.toNat := (Char.ofNat_toNat x).symm
              _ = Char.ofNat y.toNat := by rw [hn]
              _ = y := Char.ofNat_toNat y
          subst hc
          have hne : xs ≠ ys := fun e => h (by rw [e])
          simpa [hxy] using ih ys hne

theorem f64_lt_irrefl (x : F64) : x.lt x = false := by
  cases x <;> simp [F64.lt]

theorem f64_lt_trans (x y z : F64) (hx : x.WF) (hy : y.WF) (hz : z.WF)
    (hxy : x.lt y = true) (hyz : y.lt z = true) : x.lt z = true := by
  cases x with
  | nan => cases y <;> simp [F64.lt] at hxy
  | pinf => cases y <;> simp [F64.lt] at hxy
  | ninf => cases y <;> cases z <;> simp_all [F64.lt]
  | fin a b =>
    cases y with
    | nan => simp [F64.lt] at hxy
    | ninf => simp [F64.lt] at hxy
    | pinf => cases z <;> simp [F64.lt] at hyz
    | fin c d =>
      cases z with
      | nan => simp [F64.lt] at hyz
      | ninf => simp [F64.lt] at hyz
      | pinf => rfl
      | fin e f =>
        simp only [F64.lt, decide_eq_true_eq] at hxy hyz ⊢
        have hb : (0 : Int) < b := by exact_mod_cast hx
        have hd : (0 : Int) < d := by exact_mod_cast hy
        have hf : (0 : Int) < f := by exact_mod_cast hz
        have h1 := mul_lt_mul_of_pos_right hxy hf
        have h2 := mul_lt_mul_of_pos_right hyz hb
        have h3 : a * f * d < e * b * d := by nlinarith
        exact lt_of_mul_lt_mul_right h3 hd.le

theorem parseUnsigned_den (cs : List Char) (n d : Nat)
    (h : parseUnsigned cs = some (n, d)) : 0 < d := by
  unfold parseUnsigned at h
  simp only at h
  split at h
  · cases h
  · split at h
    · cases h
      positivity
    · cases h

theorem parseFloat_wf (s : String) : (parseFloat s).WF := by
  unfold parseFloat
  split
  · trivial
  · trivial
  · trivial
  · trivial
  all_goals
    split
    · rename_i h
      exact parseUnsigned_den _ _ _ h
    · simp [F64.WF]

theorem insertLeft_sorted {α : Type} (less : α → α → Bool) (P : α → Prop)
    (hirr : ∀ a, less a a = false)
    (htrans : ∀ a b c, P a → P b → P c → less a b = true → less b c = true → less a c = true)
    (htot : ∀ a b, P a → P b → a ≠ b → less a b = true ∨ less b a = true)
    (x : α) (pre : List α) (hx : P x) (hpre : ∀ y ∈ pre, P y)
    (hs : pre.Pairwise fun y z => less y z = false) :
    (insertLeft less x pre).Pairwise fun y z => less y z = false := by
  induction pre with
  | nil => simp [insertLeft]
  | cons y ys ih =>
    have hy : P y := hpre y (List.mem_cons_self _ _)
    have hys : ∀ z ∈ ys, P z := fun z hz => hpre z (List.mem_cons_of_mem _ hz)
    obtain ⟨hyz, hrest⟩ := List.pairwise_cons.1 hs
    unfold insertLeft
    by_cases hxy : less x y = true
    · simp only [hxy, if_true]
      refine List.pairwise_cons.2 ⟨?_, ih hys hrest⟩
      intro w hw
      rcases List.mem_cons.1 ((insertLeft_perm less x ys).mem_iff.1 hw) with e | e
      · subst e
        cases hyx : less y w with
        | false => rfl
        | true =>
          have := htrans w y w hx hy hx hxy hyx
          rw [hirr] at this
          cases this
      · exact hyz w e
    · simp only [hxy]
      refine List.pairwise_cons.2 ⟨?_, hs⟩
      intro w hw
      rcases List.mem_cons.1 hw with e | e
      · subst e
        simpa using hxy
      · cases hxw : less x w with
        | false => rfl
        | true =>
          exfalso
          by_cases hxe : x = y
          · subst hxe
            rw [hyz w e] at hxw
            cases hxw
          · rcases htot x y hx hy hxe with h | h
            · exact hxy h
            · have := htrans y x w hy hx (hys w e) h hxw
              rw [hyz w e] at this
              cases this

theorem foldl_insertLeft_sorted {α : Type} (less : α → α → Bool) (P : α → Prop)
    (hirr : ∀ a, less a a = false)
    (htrans : ∀ a b c, P a → P b → P c → less a b = true → less b c = true → less a c = true)
    (htot : ∀ a b, P a → P b → a ≠ b → less a b = true ∨ less b a = true)
    (xs pre : List α) (hxs : ∀ x ∈ xs, P x) (hpre : ∀ y ∈ pre, P y)
    (hs : pre.Pairwise fun y z => less y z = false) :
    (xs.foldl (fun pre x => insertLeft less x pre) pre).Pairwise
      fun y z => less y z = false := by
  induction xs generalizing pre with
  | nil => exact hs
  | cons x xs ih =>
    simp only [List.foldl_cons]
    have hx : P x := hxs x (List.mem_cons_self _ _)
    refine ih _ (fun z hz => hxs z (List.mem_cons_of_mem _ hz)) ?_
      (insertLeft_sorted less P hirr htrans htot x pre hx hpre hs)
    intro w hw
    rcases List.mem_cons.1 ((insertLeft_perm less x pre).mem_iff.1 hw) with e | e
    · exact e ▸ hx
    · exact hpre w e

/-- A slice whose elements the comparator orders strictly is sorted into
ascending order. -/
theorem sortSlice_sorted {α : Type} (less : α → α → Bool) (P : α → Prop)
    (hirr : ∀ a, less a a = false)
    (htrans : ∀ a b c, P a → P b → P c → less a b = true → less b c = true → less a c = true)
    (htot : ∀ a b, P a → P b → a ≠ b → less a b = true ∨ less b a = true)
    (xs : List α) (hxs : ∀ x ∈ xs, P x) :
    (sortSlice less xs).Pairwise fun a b => less b a = false := by
  unfold sortSlice
  rw [List.pairwise_reverse]
  exact foldl_insertLeft_sorted less P hirr htrans htot xs [] hxs (by simp) List.Pairwise.nil

/-- Two arrangements of the same elements sort to the same slice when the
comparator orders any two distinct elements strictly. -/
theorem sortSlice_eq_of_perm {α : Type} (less : α → α → Bool) (P : α → Prop)
    (hirr : ∀ a, less a a = false)
    (htrans : ∀ a b c, P a → P b → P c → less a b = true → less b c = true → less a c = true)
    (htot : ∀ a b, P a → P b → a ≠ b → less a b = true ∨ less b a = true)
    (xs ys : List α) (hxs : ∀ x ∈ xs, P x) (hperm : xs.Perm ys) :
    sortSlice less xs = sortSlice less ys := by
  have hys : ∀ y ∈ ys, P y := fun y hy => hxs y (hperm.mem_iff.2 hy)
  refine List.Perm.eq_of_sorted ?_ (sortSlice_sorted less P hirr htrans htot xs hxs)
    (sortSlice_sorted less P hirr htrans htot ys hys)
    ((sortSlice_perm less xs).trans (hperm.trans (sortSlice_perm less ys).symm))
  intro a b ha hb hab hba
  by_contra hne
  have hPa : P a := hxs a ((sortSlice_perm less xs).mem_iff.1 ha)
  have hPb : P b := hys b ((sortSlice_perm less ys).mem_iff.1 hb)
  rcases htot a b hPa hPb hne with h | h
  · rw [hba] at h
    cases h
  · rw [hab] at h
    cases h

theorem meeb_less_irrefl (a : List String) : Meeb.less a a = false :=
  lexLess_irrefl _

theorem meeb_less_trans (a b c : List String) (hab : Meeb.less a b = true)
    (hbc : Meeb.less b c = true) : Meeb.less a c = true :=
  lexLess_trans _ _ _ hab hbc

theorem mel_less_irrefl (a : List String) : Mel.less a a = false :=
  f64_lt_irrefl _

theorem mel_less_trans (a b c : List String) (hab : Mel.less a b = true)
    (hbc : Mel.less b c = true) : Mel.less a c = true :=
  f64_lt_trans _ _ _ (parseFloat_wf _) (parseFloat_wf _) (parseFloat_wf _) hab hbc

theorem meeb_collect_perm (data1 data2 : Tally) (total : Int) (thr : F64)
    (h : data1.Perm data2) :
    (Meeb.collect data1 total thr).Perm (Meeb.collect data2 total thr) := by
  rw [meeb_collect_eq, meeb_collect_eq]
  exact (h.filter _).map _

theorem mel_collect_perm (rows1 rows2 : RowTally) (total : Int) (thr : F64)
    (h : rows1.Perm rows2) :
    (Mel.collect rows1 total thr).Perm (Mel.collect rows2 total thr) := by
  rw [mel_collect_eq, mel_collect_eq]
  exact (h.filter _).flatMap_right _

/-! ## Theorems -/

/-- C1 (meeb, `identifyAnomalies`): for every tally with distinct keys, every
total (positive or not) and every threshold, the result holds exactly the
entries `[count, score, value]` of the keys whose score is below the
threshold: it is a rearrangement of those entries, and for a key of the tally
the entries carrying that key are that single entry when its score is below
the threshold and none otherwise. -/
theorem meeb_identifyAnomalies_exact (data : Tally) (totalEntries : Int) (threshold : F64)
    (hkeys : (data.map Prod.fst).Nodup) :
    (Meeb.identifyAnomalies data totalEntries threshold).Perm
        ((data.filter fun kc => (score kc.2 totalEntries).ltThr threshold).map
          fun kc => [fmtD kc.2, fmtF (score kc.2 totalEntries), kc.1]) ∧
      ∀ value count, (value, count) ∈ data →
        (Meeb.identifyAnomalies data totalEntries threshold).filter
            (fun e => decide (e.get? 2 = some value)) =
          if (score count totalEntries).ltThr threshold then
            [[fmtD count, fmtF (score count totalEntries), value]]
          else [] := by
  have hperm : (Meeb.identifyAnomalies data totalEntries threshold).Perm
      ((data.filter fun kc => (score kc.2 totalEntries).ltThr threshold).map
        fun kc => [fmtD kc.2, fmtF (score kc.2 totalEntries), kc.1]) := by
    unfold Meeb.identifyAnomalies
    rw [meeb_collect_eq]
    exact sortSlice_perm _ _
  refine ⟨hperm, ?_⟩
  intro value count hmem
  have hf := hperm.filter (fun e => decide (e.get? 2 = some value))
  have hrhs : ((data.filter fun kc => (score kc.2 totalEntries).ltThr threshold).map
        fun kc => [fmtD kc.2, fmtF (score kc.2 totalEntries), kc.1]).filter
          (fun e => decide (e.get? 2 = some value)) =
      if (score count totalEntries).ltThr threshold then
        [[fmtD count, fmtF (score count totalEntries), value]]
      else [] := by
    rw [List.filter_map, List.filter_filter]
    have hcomm : (data.filter fun kc =>
          ((fun e : List String => decide (e.get? 2 = some value)) ∘
            fun kc : String × Int => [fmtD kc.2, fmtF (score kc.2 totalEntries), kc.1]) kc &&
          (score kc.2 totalEntries).ltThr threshold) =
        (data.filter fun kc => decide (kc.1 = value)).filter
          fun kc => (score kc.2 totalEntries).ltThr threshold := by
      rw [List.filter_filter]
      congr 1
      funext kc
      simp [Bool.and_comm]
    rw [hcomm, filter_key_of_nodup data value count hkeys hmem]
    by_cases h : (score count totalEntries).ltThr threshold = true
    · simp [h]
    · simp [h]
  rw [hrhs] at hf
  split at hf
  · rename_i h
    simp only [h, if_true]
    exact List.perm_singleton.1 hf
  · rename_i h
    simp only [h]
    exact List.perm_nil.1 hf

theorem meeb_identifyAnomalies_exact_witness :
    (Meeb.identifyAnomalies [("A", 4), ("B", 1), ("C", 1)] 6 (.fin (-1) 2)).Perm
        (([("A", 4), ("B", 1), ("C", 1)].filter fun kc => (score kc.2 6).ltThr (.fin (-1) 2)).map
          fun kc => [fmtD kc.2, fmtF (score kc.2 6), kc.1]) ∧
      ∀ value count, (value, count) ∈ ([("A", 4), ("B", 1), ("C", 1)] : Tally) →
        (Meeb.identifyAnomalies [("A", 4), ("B", 1), ("C", 1)] 6 (.fin (-1) 2)).filter
            (fun e => decide (e.get? 2 = some value)) =
          if (score count 6).ltThr (.fin (-1) 2) then
            [[fmtD count, fmtF (score count 6), value]]
          else [] :=
  meeb_identifyAnomalies_exact [("A", 4), ("B", 1), ("C", 1)] 6 (.fin (-1) 2)
    (by decide)

/-- C2 (meeb, `identifyAnomalies`): on the tally x:1, y:10, z:89 with total
100 and threshold -0.5 the flagged keys are x (score -2) and y (score -1).
The comparator orders the printed scores as strings, so the entry of y comes
first in both iteration orders of the two flagged keys, although its score is
the larger number. -/
theorem meeb_identifyAnomalies_sorted_as_strings :
    Meeb.identifyAnomalies [("x", 1), ("y", 10), ("z", 89)] 100 (.fin (-1) 2) =
        [["10", "-1.000000", "y"], ["1", "-2.000000", "x"]] ∧
      Meeb.identifyAnomalies [("z", 89), ("y", 10), ("x", 1)] 100 (.fin (-1) 2) =
        [["10", "-1.000000", "y"], ["1", "-2.000000", "x"]] ∧
      (parseFloat "-2.000000").lt (parseFloat "-1.000000") = true := by
  decide

theorem score_zero_total (count : Int) (threshold : F64) :
    (score count 0).ltThr threshold = false := by
  unfold score fdiv
  simp only [if_true]
  split
  · cases threshold <;> rfl
  · split <;> cases threshold <;> rfl

theorem meeb_collect_zero_total (data : Tally) (threshold : F64) :
    Meeb.collect data 0 threshold = [] := by
  induction data with
  | nil => rfl
  | cons kc rest ih =>
    obtain ⟨k, c⟩ := kc
    simp [Meeb.collect, score_zero_total, ih]

theorem mel_collect_zero_total (data : RowTally) (threshold : F64) :
    Mel.collect data 0 threshold = [] := by
  induction data with
  | nil => rfl
  | cons kc rest ih =>
    obtain ⟨k, rows⟩ := kc
    simp [Mel.collect, score_zero_total, ih]

/-- C3 (`identifyAnomalies`, both programs): with `totalEntries = 0` the
result is empty for every tally and every threshold.  The quotient is taken
on floats, where a zero divisor gives an infinity or NaN and no fault; its
logarithm is plus infinity or NaN, which is below no threshold. -/
theorem identifyAnomalies_zero_total (data : Tally) (rowData : RowTally) (threshold : F64) :
    Meeb.identifyAnomalies data 0 threshold = [] ∧
      Mel.identifyAnomalies rowData 0 threshold = [] := by
  constructor
  · simp [Meeb.identifyAnomalies, meeb_collect_zero_total, sortSlice]
  · simp [Mel.identifyAnomalies, mel_collect_zero_total, sortSlice]

/-- C4 (meeb, `aggregateData`): when `processFile` returns on every file,
every pool of at least one worker and every schedule (the order in which the
tallies reach `dataChan`, the order in which the counts are added under the
mutex, the order in which `range` visits the entries of a tally) yield the
pair whose count is the sum of the counts of the files and whose tally maps
each key to the sum of its counts in the tallies of the files. -/
theorem meeb_aggregateData_any_schedule (header : String) (numGoroutines : Int)
    (range : Tally → Tally)
    (files chanOrder lockOrder : List FileRead) (results : List (Tally × Int))
    (hpool : 1 ≤ numGoroutines) (hrange : ∀ t, (range t).Perm t)
    (hchan : chanOrder.Perm files) (hlock : lockOrder.Perm files)
    (hres : List.Forall₂ (fun f r => Meeb.processFile f header = .ok r) files results) :
    ∃ aggregatedData,
      Meeb.aggregateData header numGoroutines range chanOrder lockOrder =
          .ok (aggregatedData, (results.map Prod.snd).sum) ∧
        ∀ key, aggregatedData.get key = (results.map fun r => r.1.get key).sum := by
  obtain ⟨sent, hsent, hsp⟩ := List.perm_comp_forall₂ hchan hres
  obtain ⟨locked, hlocked, hlp⟩ := List.perm_comp_forall₂ hlock hres
  have hnodup : ∀ r ∈ sent, (r.1.map Prod.fst).Nodup := by
    intro r hr
    obtain ⟨f, hf⟩ := forall₂_mem_right hsent hr
    exact meeb_processFile_nodup f header r hf
  refine ⟨sent.foldl (fun agg r => Meeb.mergeInto agg (range r.1)) [], ?_, ?_⟩
  · unfold Meeb.aggregateData
    rw [if_neg (by omega), (processAll_ok_iff _ _ _).2 hsent,
      (processAll_ok_iff _ _ _).2 hlocked]
    simp only [foldl_count_sum, zero_add]
    rw [(hlp.map Prod.snd).sum_eq]
  · intro key
    rw [foldl_merge_get range hrange sent [] hnodup key]
    simp only [Tally.get, zero_add]
    exact (hsp.map _).sum_eq

theorem meeb_aggregateData_any_schedule_witness :
    ∃ aggregatedData,
      Meeb.aggregateData "category" 10 List.reverse scenarioFiles.reverse
          (scenarioFiles.rotate 1) =
          .ok (aggregatedData,
            (([([("A", 2), ("B", 1)], 3), ([("A", 1), ("C", 1)], 2), ([("A", 1)], 1)] :
              List (Tally × Int)).map Prod.snd).sum) ∧
        ∀ key, aggregatedData.get key =
          (([([("A", 2), ("B", 1)], 3), ([("A", 1), ("C", 1)], 2), ([("A", 1)], 1)] :
              List (Tally × Int)).map fun r => r.1.get key).sum :=
  meeb_aggregateData_any_schedule "category" 10 List.reverse scenarioFiles
    scenarioFiles.reverse (scenarioFiles.rotate 1)
    [([("A", 2), ("B", 1)], 3), ([("A", 1), ("C", 1)], 2), ([("A", 1)], 1)]
    (by decide) (fun t => List.reverse_perm t) (List.reverse_perm _) (List.rotate_perm _ 1)
    (.cons rfl (.cons rfl (.cons rfl .nil)))

theorem attributeRow_fold_count (i : Nat) (rows : List (List String)) (st : RowTally × Int) :
    (rows.foldl (Mel.attributeRow i) st).2 =
      st.2 + ((rows.filter fun record => decide (i < record.length)).length : Int) := by
  induction rows generalizing st with
  | nil => simp
  | cons record rest ih =>
    simp only [List.foldl_cons]
    rw [ih]
    unfold Mel.attributeRow
    by_cases h : record.length ≤ i
    · have h' : ¬ i < record.length := by omega
      simp [h, List.filter_cons, h']
    · have h' : i < record.length := by omega
      simp only [h, if_false, List.filter_cons, h', decide_True, if_true, List.length_cons]
      push_cast
      ring

theorem perHeader_fold_count (head : List String) (rows : List (List String))
    (headers : List String) (st : RowTally × Int) :
    (headers.foldl (Mel.perHeader head rows) st).2 =
      st.2 + (((headers.filterMap fun header => headerIndex header head).map fun i =>
        (rows.filter fun record => decide (i < record.length)).length).sum : Nat) := by
  induction headers generalizing st with
  | nil => simp
  | cons header rest ih =>
    simp only [List.foldl_cons]
    rw [ih]
    unfold Mel.perHeader
    cases hidx : headerIndex header head with
    | none => simp [List.filterMap_cons, hidx]
    | some i =>
      simp only [List.filterMap_cons, hidx, List.map_cons, List.sum_cons,
        attributeRow_fold_count]
      push_cast
      ring

/-- C5 as stated fails (mel, `processFile`): with the header `a,b`, the one
data row `1,2` and the selector columns `a` and `b`, the returned count is 2,
while one row is attributed to at least one selector column. -/
theorem mel_processFile_counts_per_column :
    Mel.processFile (.parsed [["a", "b"], ["1", "2"]]) ["a", "b"] =
        .ok (some ([("1", [["1", "2"]]), ("2", [["1", "2"]])], 2)) ∧
      rowsAttributedOnce ["a", "b"] [["1", "2"]] ["a", "b"] = 1 :=
  ⟨rfl, by decide⟩

/-- C5 amended (mel, `processFile`): on a parsed file with a header row the
returned count is the number of attributions: the sum, over the selector
columns found in the header (each as often as it is listed), of the number of
data rows that are longer than the index of that column. -/
theorem mel_processFile_count_attributions (head : List String) (rows : List (List String))
    (headers : List String) :
    ∃ data, Mel.processFile (.parsed (head :: rows)) headers =
      .ok (some (data,
        ((((headers.filterMap fun header => headerIndex header head).map fun i =>
          (rows.filter fun record => decide (i < record.length)).length).sum : Nat) : Int))) := by
  refine ⟨(headers.foldl (Mel.perHeader head rows) ([], 0)).1, ?_⟩
  have h := perHeader_fold_count head rows headers ([], 0)
  simp only [zero_add] at h
  unfold Mel.processFile
  rw [← h]

/-- C6 (meeb, `processFile`): on the file with header `id,category` and the
one data row `1`, which has no field at the index of `category`, the read
`record[headerIndex]` is out of range: the call ends in a panic instead of
skipping the row. -/
theorem meeb_processFile_short_row_panics :
    Meeb.processFile (.parsed [["id", "category"], ["1"]]) "category" =
      .error .indexOutOfRange :=
  rfl

/-- C7 (`identifyAnomalies`, both programs): for every tally, every total
and thresholds `t1 < t2`, every entry returned with `t1` is returned with
`t2`. -/
theorem identifyAnomalies_threshold_mono (data : Tally) (rowData : RowTally)
    (totalEntries : Int) (t1 t2 : F64) (ht : t1.lt t2 = true) :
    (∀ e ∈ Meeb.identifyAnomalies data totalEntries t1,
        e ∈ Meeb.identifyAnomalies data totalEntries t2) ∧
      ∀ e ∈ Mel.identifyAnomalies rowData totalEntries t1,
        e ∈ Mel.identifyAnomalies rowData totalEntries t2 := by
  constructor
  · intro e he
    unfold Meeb.identifyAnomalies at he ⊢
    rw [mem_sortSlice, meeb_collect_eq] at he ⊢
    obtain ⟨kc, hkc, rfl⟩ := List.mem_map.1 he
    obtain ⟨hmem, hflag⟩ := List.mem_filter.1 hkc
    exact List.mem_map.2 ⟨kc, List.mem_filter.2 ⟨hmem, ltThr_of_lt _ _ _ hflag ht⟩, rfl⟩
  · intro e he
    unfold Mel.identifyAnomalies at he ⊢
    rw [mem_sortSlice, mel_collect_eq] at he ⊢
    obtain ⟨kr, hkr, hin⟩ := List.mem_flatMap.1 he
    obtain ⟨hmem, hflag⟩ := List.mem_filter.1 hkr
    exact List.mem_flatMap.2 ⟨kr, List.mem_filter.2 ⟨hmem, ltThr_of_lt _ _ _ hflag ht⟩, hin⟩

theorem identifyAnomalies_threshold_mono_witness :
    (F64.fin (-3) 1).lt (.fin (-2) 5) = true ∧
      (∀ e ∈ Meeb.identifyAnomalies [("A", 2), ("B", 1)] 3 (.fin (-3) 1),
        e ∈ Meeb.identifyAnomalies [("A", 2), ("B", 1)] 3 (.fin (-2) 5)) ∧
      ∀ e ∈ Mel.identifyAnomalies [("A", [["1", "A"], ["2", "A"]]), ("B", [["3", "B"]])] 3
          (.fin (-3) 1),
        e ∈ Mel.identifyAnomalies [("A", [["1", "A"], ["2", "A"]]), ("B", [["3", "B"]])] 3
          (.fin (-2) 5) :=
  ⟨by decide, identifyAnomalies_threshold_mono [("A", 2), ("B", 1)]
    [("A", [["1", "A"], ["2", "A"]]), ("B", [["3", "B"]])] 3 (.fin (-3) 1) (.fin (-2) 5)
    (by decide)⟩

/-- C8 (mel, `identifyAnomalies`): for every tally of rows, every total and
every threshold, the result is a rearrangement of the following entries: for
each key whose score `log10 (len(rows) / totalEntries)` is below the threshold
and each row of its bucket, the count of the bucket and its score, followed by
the fields of that row.  A flagged bucket of n rows gives n entries; no other
entry is returned. -/
theorem mel_identifyAnomalies_rows (data : RowTally) (totalEntries : Int) (threshold : F64) :
    (Mel.identifyAnomalies data totalEntries threshold).Perm
      ((data.filter fun kr => (score kr.2.length totalEntries).ltThr threshold).flatMap
        fun kr => kr.2.map fun row =>
          [fmtD kr.2.length, fmtF (score kr.2.length totalEntries)] ++ row) := by
  unfold Mel.identifyAnomalies
  rw [mel_collect_eq]
  exact sortSlice_perm _ _

/-- C9 as stated fails (meeb, `identifyAnomalies`): the keys B and C of the
scenario tally have the same score, and the two iteration orders A, B, C and
A, C, B give the two entries in different orders. -/
theorem meeb_identifyAnomalies_tie_follows_iteration :
    ([("A", 4), ("B", 1), ("C", 1)] : Tally).Perm [("A", 4), ("C", 1), ("B", 1)] ∧
      Meeb.identifyAnomalies [("A", 4), ("B", 1), ("C", 1)] 6 (.fin (-1) 2) =
        [["1", "-0.778151", "B"], ["1", "-0.778151", "C"]] ∧
      Meeb.identifyAnomalies [("A", 4), ("C", 1), ("B", 1)] 6 (.fin (-1) 2) =
        [["1", "-0.778151", "C"], ["1", "-0.778151", "B"]] :=
  ⟨List.Perm.cons _ (List.Perm.swap _ _ _), by decide, by decide⟩

/-- C9 amended (`identifyAnomalies`, both programs): for two iteration orders
of the same tally the results hold the same entries, each as often.  They are
the same sequence when there is no tie: in meeb when any two distinct returned
entries differ in the printed score, in mel when the comparator puts any two
distinct returned entries in a strict order. -/
theorem identifyAnomalies_iteration_order (data1 data2 : Tally) (rows1 rows2 : RowTally)
    (totalEntries : Int) (threshold : F64)
    (hdata : data1.Perm data2) (hrows : rows1.Perm rows2) :
    (Meeb.identifyAnomalies data1 totalEntries threshold).Perm
        (Meeb.identifyAnomalies data2 totalEntries threshold) ∧
      (Mel.identifyAnomalies rows1 totalEntries threshold).Perm
        (Mel.identifyAnomalies rows2 totalEntries threshold) ∧
      ((∀ a ∈ Meeb.identifyAnomalies data1 totalEntries threshold,
          ∀ b ∈ Meeb.identifyAnomalies data1 totalEntries threshold,
            a ≠ b → a.getD 1 "" ≠ b.getD 1 "") →
        Meeb.identifyAnomalies data1 totalEntries threshold =
          Meeb.identifyAnomalies data2 totalEntries threshold) ∧
      ((∀ a ∈ Mel.identifyAnomalies rows1 totalEntries threshold,
          ∀ b ∈ Mel.identifyAnomalies rows1 totalEntries threshold,
            a ≠ b → Mel.less a b = true ∨ Mel.less b a = true) →
        Mel.identifyAnomalies rows1 totalEntries threshold =
          Mel.identifyAnomalies rows2 totalEntries threshold) := by
  have hm := meeb_collect_perm data1 data2 totalEntries threshold hdata
  have hr := mel_collect_perm rows1 rows2 totalEntries threshold hrows
  refine ⟨?_, ?_, ?_, ?_⟩
  · exact (sortSlice_perm _ _).trans (hm.trans (sortSlice_perm _ _).symm)
  · exact (sortSlice_perm _ _).trans (hr.trans (sortSlice_perm _ _).symm)
  · intro hties
    unfold Meeb.identifyAnomalies at hties ⊢
    refine sortSlice_eq_of_perm Meeb.less (· ∈ Meeb.collect data1 totalEntries threshold)
      meeb_less_irrefl (fun a b c _ _ _ => meeb_less_trans a b c) ?_ _ _ (fun _ h => h) hm
    intro a b ha hb hne
    have hfield := hties a ((mem_sortSlice _ _ _).2 ha) b ((mem_sortSlice _ _ _).2 hb) hne
    exact lexLess_total _ _ fun e => hfield (String.ext e)
  · intro hties
    unfold Mel.identifyAnomalies at hties ⊢
    refine sortSlice_eq_of_perm Mel.less (· ∈ Mel.collect rows1 totalEntries threshold)
      mel_less_irrefl (fun a b c _ _ _ => mel_less_trans a b c) ?_ _ _ (fun _ h => h) hr
    intro a b ha hb hne
    exact hties a ((mem_sortSlice _ _ _).2 ha) b ((mem_sortSlice _ _ _).2 hb) hne

theorem identifyAnomalies_iteration_order_witness :
    (Meeb.identifyAnomalies [("x", 1), ("y", 10), ("z", 89)] 100 (.fin (-1) 2)).Perm
        (Meeb.identifyAnomalies [("z", 89), ("y", 10), ("x", 1)] 100 (.fin (-1) 2)) ∧
      (Mel.identifyAnomalies [("x", [["x", "1"]]), ("y", [["y", "2"], ["y", "3"]])] 100
          (.fin (-1) 2)).Perm
        (Mel.identifyAnomalies [("y", [["y", "2"], ["y", "3"]]), ("x", [["x", "1"]])] 100
          (.fin (-1) 2)) ∧
      ((∀ a ∈ Meeb.identifyAnomalies [("x", 1), ("y", 10), ("z", 89)] 100 (.fin (-1) 2),
          ∀ b ∈ Meeb.identifyAnomalies [("x", 1), ("y", 10), ("z", 89)] 100 (.fin (-1) 2),
            a ≠ b → a.getD 1 "" ≠ b.getD 1 "") →
        Meeb.identifyAnomalies [("x", 1), ("y", 10), ("z", 89)] 100 (.fin (-1) 2) =
          Meeb.identifyAnomalies [("z", 89), ("y", 10), ("x", 1)] 100 (.fin (-1) 2)) ∧
      ((∀ a ∈ Mel.identifyAnomalies [("x", [["x", "1"]]), ("y", [["y", "2"], ["y", "3"]])] 100
            (.fin (-1) 2),
          ∀ b ∈ Mel.identifyAnomalies [("x", [["x", "1"]]), ("y", [["y", "2"], ["y", "3"]])] 100
            (.fin (-1) 2),
            a ≠ b → Mel.less a b = true ∨ Mel.less b a = true) →
        Mel.identifyAnomalies [("x", [["x", "1"]]), ("y", [["y", "2"], ["y", "3"]])] 100
            (.fin (-1) 2) =
          Mel.identifyAnomalies [("y", [["y", "2"], ["y", "3"]]), ("x", [["x", "1"]])] 100
            (.fin (-1) 2)) :=
  identifyAnomalies_iteration_order [("x", 1), ("y", 10), ("z", 89)]
    [("z", 89), ("y", 10), ("x", 1)]
    [("x", [["x", "1"]]), ("y", [["y", "2"], ["y", "3"]])]
    [("y", [["y", "2"], ["y", "3"]]), ("x", [["x", "1"]])] 100 (.fin (-1) 2)
    (List.reverse_perm ([("x", 1), ("y", 10), ("z", 89)] : Tally)).symm
    (List.Perm.swap _ _ _)

/-- C10 (meeb, scenario): the three files grouped by `category`, read in
turn by the one worker that `determineNumGoroutines` allots to three files,
give the tally A:4, B:1, C:1 and the count 6; with threshold -0.5 the program returns the
entry of B and the entry of C, each with count 1 and score -0.778151, and no
entry for A; every iteration order of the tally gives these two entries. -/
theorem meeb_scenario_three_files :
    Meeb.aggregateData "category" (determineNumGoroutines ["1.csv", "2.csv", "3.csv"]) id
        scenarioFiles scenarioFiles =
        .ok ([("A", 4), ("B", 1), ("C", 1)], 6) ∧
      Meeb.identifyAnomalies [("A", 4), ("B", 1), ("C", 1)] 6 (.fin (-1) 2) =
        [["1", "-0.778151", "B"], ["1", "-0.778151", "C"]] ∧
      ∀ data : Tally, data.Perm [("A", 4), ("B", 1), ("C", 1)] →
        (Meeb.identifyAnomalies data 6 (.fin (-1) 2)).Perm
          [["1", "-0.778151", "B"], ["1", "-0.778151", "C"]] := by
  refine ⟨rfl, by decide, ?_⟩
  intro data hdata
  have h := meeb_collect_perm data [("A", 4), ("B", 1), ("C", 1)] 6 (.fin (-1) 2) hdata
  have hc : Meeb.collect [("A", 4), ("B", 1), ("C", 1)] 6 (.fin (-1) 2) =
      [["1", "-0.778151", "B"], ["1", "-0.778151", "C"]] := by decide
  rw [hc] at h
  exact (sortSlice_perm _ _).trans h

/-- C11 (`determineNumGoroutines`, both programs): for a list of n files the
result is n / 2 (integer division) clamped to the range from 1 to 10: it is 1
when n < 2, n / 2 when 2 ≤ n ≤ 21, and 10 when n ≥ 22, and it always lies
between 1 and 10. -/
theorem determineNumGoroutines_clamp (files : List String) :
    determineNumGoroutines files = max 1 (min 10 ((files.length : Int) / 2)) ∧
      (files.length < 2 → determineNumGoroutines files = 1) ∧
      (2 ≤ files.length → files.length ≤ 21 →
        determineNumGoroutines files = (files.length : Int) / 2) ∧
      (22 ≤ files.length → determineNumGoroutines files = 10) ∧
      1 ≤ determineNumGoroutines files ∧ determineNumGoroutines files ≤ 10 := by
  simp only [determineNumGoroutines]
  refine ⟨?_, ?_, ?_, ?_, ?_, ?_⟩
  · split_ifs <;> omega
  · intro h
    split_ifs <;> omega
  · intro h1 h2
    split_ifs <;> omega
  · intro h
    split_ifs <;> omega
  · split_ifs <;> omega
  · split_ifs <;> omega

/-- C12 (`processFile`, both programs): a file that is read without error
and holds no record at all makes the read `records[0]` fail with an index out
of range, in meeb and (with at least one selector column) in mel: the call
panics instead of returning an empty tally and the count 0. -/
theorem processFile_empty_file_panics :
    Meeb.processFile (.parsed []) "category" = .error .indexOutOfRange ∧
      Mel.processFile (.parsed []) ["category"] = .error .indexOutOfRange :=
  ⟨rfl, rfl⟩

theorem tally_add_sum (m : Tally) (k : String) (c : Int) :
    ((m.add k c).map Prod.snd).sum = (m.map Prod.snd).sum + c := by
  induction m with
  | nil => simp [Tally.add]
  | cons kc rest ih =>
    obtain ⟨k', c'⟩ := kc
    unfold Tally.add
    by_cases h : k' = k
    · simp only [h, if_true, List.map_cons, List.sum_cons]
      ring
    · simp only [h, if_false, List.map_cons, List.sum_cons, ih]
      ring

theorem tally_add_pos (m : Tally) (k : String) (c : Int)
    (hm : ∀ e ∈ m, 1 ≤ e.2) (hc : 1 ≤ c) : ∀ e ∈ m.add k c, 1 ≤ e.2 := by
  induction m with
  | nil =>
    intro e he
    simp only [Tally.add, List.mem_singleton] at he
    subst he
    exact hc
  | cons kc rest ih =>
    obtain ⟨k', c'⟩ := kc
    have hc' : 1 ≤ c' := hm (k', c') (List.mem_cons_self _ _)
    have hrest : ∀ e ∈ rest, 1 ≤ e.2 := fun e he => hm e (List.mem_cons_of_mem _ he)
    intro e he
    unfold Tally.add at he
    by_cases h : k' = k
    · simp only [h, if_true] at he
      rcases List.mem_cons.1 he with e1 | e1
      · subst e1
        show 1 ≤ c' + c
        omega
      · exact hrest e e1
    · simp only [h, if_false] at he
      rcases List.mem_cons.1 he with e1 | e1
      · subst e1
        exact hc'
      · exact ih hrest e e1

theorem tallyRows_ok (i : Nat) (rows : List (List String)) (st : Tally × Int)
    (hlen : ∀ record ∈ rows, i < record.length) (hpos : ∀ e ∈ st.1, 1 ≤ e.2) :
    ∃ st', Meeb.tallyRows i rows st = .ok st' ∧
      (st'.1.map Prod.snd).sum = (st.1.map Prod.snd).sum + rows.length ∧
      st'.2 = st.2 + rows.length ∧ ∀ e ∈ st'.1, 1 ≤ e.2 := by
  induction rows generalizing st with
  | nil => exact ⟨st, rfl, by simp, by simp, hpos⟩
  | cons record rest ih =>
    have hi : i < record.length := hlen record (List.mem_cons_self _ _)
    have hget : record.get? i = some (record.get ⟨i, hi⟩) := List.get?_eq_get hi
    have hrow : Meeb.tallyRow i st record =
        .ok (st.1.add (record.get ⟨i, hi⟩) 1, st.2 + 1) := by
      unfold Meeb.tallyRow
      rw [hget]
    obtain ⟨st', hrun, hsum, hcount, hpos'⟩ :=
      ih (st.1.add (record.get ⟨i, hi⟩) 1, st.2 + 1)
        (fun r hr => hlen r (List.mem_cons_of_mem _ hr))
        (tally_add_pos st.1 _ 1 hpos (le_refl 1))
    refine ⟨st', ?_, ?_, ?_, hpos'⟩
    · unfold Meeb.tallyRows
      rw [hrow]
      exact hrun
    · rw [hsum, tally_add_sum]
      simp only [List.length_cons]
      push_cast
      ring
    · rw [hcount]
      simp only [List.length_cons]
      push_cast
      ring

theorem meeb_processFile_ok (head : List String) (rows : List (List String)) (header : String)
    (hlen : ∀ i, headerIndex header head = some i → ∀ record ∈ rows, i < record.length) :
    ∃ r, Meeb.processFile (.parsed (head :: rows)) header = .ok r ∧
      (r.1.map Prod.snd).sum = r.2 ∧ ∀ e ∈ r.1, 1 ≤ e.2 := by
  cases hidx : headerIndex header head with
  | none => exact ⟨([], 0), by simp only [Meeb.processFile, hidx], by simp, by simp⟩
  | some i =>
    obtain ⟨st', hrun, hsum, hcount, hpos⟩ :=
      tallyRows_ok i rows ([], 0) (hlen i hidx) (by simp)
    refine ⟨st', ?_, ?_, hpos⟩
    · simp only [Meeb.processFile, hidx]
      exact hrun
    · rw [hsum, hcount]
      simp

theorem mergeInto_sum (agg data : Tally) :
    ((Meeb.mergeInto agg data).map Prod.snd).sum =
      (agg.map Prod.snd).sum + (data.map Prod.snd).sum := by
  induction data generalizing agg with
  | nil => simp [Meeb.mergeInto]
  | cons kc rest ih =>
    have hstep : Meeb.mergeInto agg (kc :: rest) = Meeb.mergeInto (agg.add kc.1 kc.2) rest := rfl
    rw [hstep, ih, tally_add_sum]
    simp only [List.map_cons, List.sum_cons]
    ring

theorem mergeInto_pos (agg data : Tally) (ha : ∀ e ∈ agg, 1 ≤ e.2)
    (hd : ∀ e ∈ data, 1 ≤ e.2) : ∀ e ∈ Meeb.mergeInto agg data, 1 ≤ e.2 := by
  induction data generalizing agg with
  | nil => exact ha
  | cons kc rest ih =>
    exact ih _ (tally_add_pos agg kc.1 kc.2 ha (hd kc (List.mem_cons_self _ _)))
      (fun e he => hd e (List.mem_cons_of_mem _ he))

theorem foldl_merge_invariant (range : Tally → Tally) (hrange : ∀ t, (range t).Perm t)
    (sent : List (Tally × Int)) (agg : Tally)
    (hsent : ∀ r ∈ sent, (r.1.map Prod.snd).sum = r.2 ∧ ∀ e ∈ r.1, 1 ≤ e.2)
    (hnodup : (agg.map Prod.fst).Nodup) (hagg : ∀ e ∈ agg, 1 ≤ e.2) :
    ((sent.foldl (fun agg r => Meeb.mergeInto agg (range r.1)) agg).map Prod.snd).sum =
        (agg.map Prod.snd).sum + (sent.map Prod.snd).sum ∧
      ((sent.foldl (fun agg r => Meeb.mergeInto agg (range r.1)) agg).map Prod.fst).Nodup ∧
      ∀ e ∈ sent.foldl (fun agg r => Meeb.mergeInto agg (range r.1)) agg, 1 ≤ e.2 := by
  induction sent generalizing agg with
  | nil => exact ⟨by simp, hnodup, hagg⟩
  | cons r rest ih =>
    obtain ⟨hr, hrpos⟩ := hsent r (List.mem_cons_self _ _)
    have hpos : ∀ e ∈ Meeb.mergeInto agg (range r.1), 1 ≤ e.2 :=
      mergeInto_pos agg _ hagg (fun e he => hrpos e ((hrange r.1).mem_iff.1 he))
    obtain ⟨h1, h2, h3⟩ := ih (Meeb.mergeInto agg (range r.1))
      (fun x hx => hsent x (List.mem_cons_of_mem _ hx)) (mergeInto_nodup agg _ hnodup) hpos
    refine ⟨?_, h2, h3⟩
    simp only [List.foldl_cons, List.map_cons, List.sum_cons]
    rw [h1, mergeInto_sum, ((hrange r.1).map Prod.snd).sum_eq, hr]
    ring

theorem forall₂_of_forall_exists {α β : Type} {R : α → β → Prop} (as : List α)
    (h : ∀ a ∈ as, ∃ b, R a b) : ∃ bs, List.Forall₂ R as bs := by
  induction as with
  | nil => exact ⟨[], List.Forall₂.nil⟩
  | cons a rest ih =>
    obtain ⟨b, hb⟩ := h a (List.mem_cons_self _ _)
    obtain ⟨bs, hbs⟩ := ih fun x hx => h x (List.mem_cons_of_mem _ hx)
    exact ⟨b :: bs, List.Forall₂.cons hb hbs⟩

/-- A count between 1 and the total gives a finite proportion and a score
that is below every positive number. -/
theorem score_nonpos (count total : Int) (h1 : 1 ≤ count) (h2 : count ≤ total) :
    fdiv count total = .fin count total.toNat ∧
      ∀ t, F64.lt (.fin 0 1) t = true → (score count total).ltThr t = true := by
  have hdiv : fdiv count total = .fin count total.toNat := by
    unfold fdiv
    rw [if_neg (by omega), if_pos (by omega)]
  refine ⟨hdiv, ?_⟩
  intro t ht
  have hs : score count total = .log count.toNat total.toNat := by
    unfold score
    rw [hdiv]
    simp only [log10]
    rw [if_neg (by omega), if_neg (by omega)]
  rw [hs]
  cases t with
  | nan => simp [F64.lt] at ht
  | ninf => simp [F64.lt] at ht
  | pinf => rfl
  | fin p q =>
    simp only [F64.lt, decide_eq_true_eq] at ht
    have hp : 0 < p := by
      have : (0 : Int) * q < p * 1 := by exact_mod_cast ht
      omega
    have ha : (-p).toNat = 0 := by omega
    simp only [Score.ltThr, ha, pow_zero, mul_one, decide_eq_true_eq]
    have hle : count.toNat ^ q ≤ total.toNat ^ q :=
      Nat.pow_le_pow_left (by omega) q
    have hpos : 0 < total.toNat ^ q := pow_pos (by omega) q
    have hten : 1 < 10 ^ p.toNat := Nat.one_lt_pow (by omega) (by norm_num)
    have hmul : total.toNat ^ q * 1 < total.toNat ^ q * 10 ^ p.toNat :=
      (mul_lt_mul_left hpos).2 hten
    rw [Nat.mul_one] at hmul
    exact lt_of_le_of_lt hle hmul

/-- C13 (meeb, `aggregateData`): for files that each have a header row and
whose data rows reach the selector column, every pool of at least one worker
and every schedule return a tally and a count such that the counts of the
tally (one per key) add up to the count, every count of the tally is at least
1 and at most the count, the proportion of every key is the finite quotient
of these two, and the score of every key is below every positive number,
that is at most 0. -/
theorem meeb_aggregateData_invariant (header : String) (numGoroutines : Int)
    (range : Tally → Tally) (files chanOrder lockOrder : List FileRead)
    (hpool : 1 ≤ numGoroutines) (hrange : ∀ t, (range t).Perm t)
    (hchan : chanOrder.Perm files) (hlock : lockOrder.Perm files)
    (hfiles : ∀ f ∈ files, ∃ head rows, f = .parsed (head :: rows) ∧
      ∀ i, headerIndex header head = some i → ∀ record ∈ rows, i < record.length) :
    ∃ aggregatedData totalEntries,
      Meeb.aggregateData header numGoroutines range chanOrder lockOrder =
          .ok (aggregatedData, totalEntries) ∧
        (aggregatedData.map Prod.fst).Nodup ∧
        (aggregatedData.map Prod.snd).sum = totalEntries ∧
        ∀ key count, (key, count) ∈ aggregatedData →
          1 ≤ count ∧ count ≤ totalEntries ∧
            fdiv count totalEntries = .fin count totalEntries.toNat ∧
            ∀ t, F64.lt (.fin 0 1) t = true → (score count totalEntries).ltThr t = true := by
  have hex : ∀ f ∈ files, ∃ r, Meeb.processFile f header = .ok r ∧
      (r.1.map Prod.snd).sum = r.2 ∧ ∀ e ∈ r.1, 1 ≤ e.2 := by
    intro f hf
    obtain ⟨head, rows, rfl, hlen⟩ := hfiles f hf
    exact meeb_processFile_ok head rows header hlen
  obtain ⟨results, hres⟩ := forall₂_of_forall_exists files hex
  obtain ⟨sent, hsent, hsp⟩ := List.perm_comp_forall₂ hchan hres
  obtain ⟨locked, hlocked, hlp⟩ := List.perm_comp_forall₂ hlock hres
  have hsentP : ∀ r ∈ sent, (r.1.map Prod.snd).sum = r.2 ∧ ∀ e ∈ r.1, 1 ≤ e.2 := by
    intro r hr
    obtain ⟨f, hf⟩ := forall₂_mem_right hsent hr
    exact hf.2
  obtain ⟨hsum, hnodup, hpos⟩ :=
    foldl_merge_invariant range hrange sent [] hsentP (by simp) (by simp)
  have htotal : (sent.map Prod.snd).sum = (locked.map Prod.snd).sum :=
    ((hsp.trans hlp.symm).map Prod.snd).sum_eq
  refine ⟨sent.foldl (fun agg r => Meeb.mergeInto agg (range r.1)) [],
    (locked.map Prod.snd).sum, ?_, hnodup, ?_, ?_⟩
  · unfold Meeb.aggregateData
    rw [if_neg (by omega), (processAll_ok_iff _ _ _).2 (hsent.imp fun _ _ h => h.1),
      (processAll_ok_iff _ _ _).2 (hlocked.imp fun _ _ h => h.1)]
    simp only [foldl_count_sum, zero_add]
  · rw [hsum, htotal]
    simp
  · intro key count hmem
    have h1 : 1 ≤ count := hpos (key, count) hmem
    have h2 : count ≤ (locked.map Prod.snd).sum := by
      rw [← htotal]
      have hs := hsum
      simp only [List.map_nil, List.sum_nil, zero_add] at hs
      rw [← hs]
      refine List.single_le_sum ?_ count (List.mem_map.2 ⟨(key, count), hmem, rfl⟩)
      intro x hx
      obtain ⟨e, he, rfl⟩ := List.mem_map.1 hx
      have := hpos e he
      omega
    exact ⟨h1, h2, score_nonpos count _ h1 h2⟩

theorem meeb_aggregateData_invariant_witness :
    ∃ aggregatedData totalEntries,
      Meeb.aggregateData "category" 10 List.reverse scenarioFiles.reverse
          (scenarioFiles.rotate 1) = .ok (aggregatedData, totalEntries) ∧
        (aggregatedData.map Prod.fst).Nodup ∧
        (aggregatedData.map Prod.snd).sum = totalEntries ∧
        ∀ key count, (key, count) ∈ aggregatedData →
          1 ≤ count ∧ count ≤ totalEntries ∧
            fdiv count totalEntries = .fin count totalEntries.toNat ∧
            ∀ t, F64.lt (.fin 0 1) t = true → (score count totalEntries).ltThr t = true :=
  meeb_aggregateData_invariant "category" 10 List.reverse scenarioFiles
    scenarioFiles.reverse (scenarioFiles.rotate 1)
    (by decide) (fun t => List.reverse_perm t) (List.reverse_perm _) (List.rotate_perm _ 1)
    (by
      have hidx : headerIndex "category" ["id", "category"] = some 1 := by decide
      intro f hf
      simp only [scenarioFiles, List.mem_cons, List.mem_singleton, List.not_mem_nil,
        or_false] at hf
      rcases hf with rfl | rfl | rfl
      · refine ⟨_, _, rfl, ?_⟩
        intro i hi record hr
        rw [hidx] at hi
        cases hi
        simp only [List.mem_cons, List.mem_singleton, List.not_mem_nil, or_false] at hr
        rcases hr with rfl | rfl | rfl <;> decide
      · refine ⟨_, _, rfl, ?_⟩
        intro i hi record hr
        rw [hidx] at hi
        cases hi
        simp only [List.mem_cons, List.mem_singleton, List.not_mem_nil, or_false] at hr
        rcases hr with rfl | rfl <;> decide
      · refine ⟨_, _, rfl, ?_⟩
        intro i hi record hr
        rw [hidx] at hi
        cases hi
        simp only [List.mem_cons, List.mem_singleton, List.not_mem_nil, or_false] at hr
        subst hr
        decide)

end GoMeeb
